import Mathlib

/-!
# Verification of the todo-list application

A shallow embedding of the functional core of the tutorial todo-list
application (root component `src/App.tsx`, extracted form component
`NewTodoForm`, and the persistence layer shown in the tutorial text),
together with proofs of the specification's testable properties.

The UI framework's rendering and event plumbing are outside the model;
what is embedded are the state-update closures (`handleSubmit`,
`toggleTodo`, `deleteTodo`, `addTodo`), the localStorage read/write
code, and the JSON codec they use.
-/

namespace TodoApp

/-- The `Todo` record type from `App.tsx`:
`type Todo = { id: string, title: string, completed: boolean }`. -/
structure Todo where
  id : String
  title : String
  completed : Bool
deriving Repr, DecidableEq

/-- The state-update closure inside `App.tsx`'s `handleSubmit`:
appends `{ id: crypto.randomUUID(), title: newItem, completed: false }`
to the current list.  `crypto.randomUUID()` is the browser's generator,
modelled by the explicit `freshId` argument.  Note that this root-level
handler performs no emptiness check on `newItem`. -/
def addTodo (todos : List Todo) (freshId : String) (title : String) : List Todo :=
  todos ++ [{ id := freshId, title := title, completed := false }]

/-- The root `App.tsx` `handleSubmit`, acting on the pair of state variables
`(todos, newItem)`: it appends the new record and then clears the input
(`setNewItem("")`).  There is no empty-title guard in this version. -/
def handleSubmit (todos : List Todo) (newItem : String) (freshId : String) :
    List Todo × String :=
  (addTodo todos freshId newItem, "")

/-- The `handleSubmit` of the extracted `NewTodoForm` component
(`if (newItem === "") return` guard, then `addTodo(newItem)` and
`setNewItem("")`).  The `addTodo` prop passed down from the root is the
`addTodo` closure above. -/
def newTodoFormSubmit (todos : List Todo) (newItem : String) (freshId : String) :
    List Todo × String :=
  if newItem = "" then (todos, newItem)
  else (addTodo todos freshId newItem, "")

/-- The `toggleTodo(id, completed)` closure from `App.tsx`: maps over the list,
replacing the record whose `id` matches with a copy whose `completed`
field is set to the argument, and returning every other record as-is. -/
def toggleTodo (todos : List Todo) (id : String) (completed : Bool) : List Todo :=
  todos.map fun todo => if todo.id = id then { todo with completed := completed } else todo

/-- The `deleteTodo(id)` closure from `App.tsx`: keeps exactly the records whose
`id` differs from the argument. -/
def deleteTodo (todos : List Todo) (id : String) : List Todo :=
  todos.filter fun todo => todo.id ≠ id

/-- The checkbox for a record is rendered with `checked={todo.completed}`
and `onChange={e => toggleTodo(todo.id, e.target.checked)}`; clicking it
flips the DOM checkbox, so the handler receives the negation of the
record's current flag.  `uiToggle` is that composite user-level toggle,
for a record `r` currently in the list. -/
def uiToggle (todos : List Todo) (r : Todo) : List Todo :=
  toggleTodo todos r.id (!r.completed)

/-- The identifiers currently present in a list. -/
def ids (todos : List Todo) : List String :=
  todos.map Todo.id

/-! ## The JSON layer

`App.tsx` persists through the browser builtins `JSON.stringify` and
`JSON.parse`.  JSON values are embedded as the inductive `Json`;
`stringify` is the serializer (JSON.stringify on such a value) and
`jsonParse` the grammar-level parser (JSON.parse, which throws a
`SyntaxError` on malformed text, modelled by `Except`).  Numbers are
restricted to integers: the application's records contain only strings
and booleans, so no claim depends on fractional syntax. -/

/-- JSON value trees, as produced by `JSON.parse` / consumed by
`JSON.stringify`. -/
inductive Json where
  | null : Json
  | bool : Bool → Json
  | num : Int → Json
  | str : String → Json
  | arr : List Json → Json
  | obj : List (String × Json) → Json
deriving Repr

/-- The double-quote character. -/
def quoteChar : Char := Char.ofNat 34

/-- The opening-brace character. -/
def lbrace : Char := Char.ofNat 123

/-- The closing-brace character. -/
def rbrace : Char := Char.ofNat 125

/-- One hexadecimal digit, as `JSON.stringify` emits in `\u00XX` escapes. -/
def hexDigit (n : Nat) : Char :=
  if n < 10 then Char.ofNat (48 + n) else Char.ofNat (87 + n)

/-- How `JSON.stringify` escapes a single character inside a string
literal: quote, backslash, and control characters are escaped, all
others pass through. -/
def escapeChar (c : Char) : String :=
  if c = quoteChar then "\\" ++ String.singleton quoteChar
  else if c = '\\' then "\\\\"
  else if c = '\n' then "\\n"
  else if c = '\t' then "\\t"
  else if c = '\r' then "\\r"
  else if c = Char.ofNat 8 then "\\b"
  else if c = Char.ofNat 12 then "\\f"
  else if c.toNat < 32 then
    "\\u00" ++ String.singleton (hexDigit (c.toNat / 16)) ++
      String.singleton (hexDigit (c.toNat % 16))
  else String.singleton c

/-- A JSON string literal: the escaped body between double quotes. -/
def quoteString (s : String) : String :=
  String.singleton quoteChar ++ String.join (s.data.map escapeChar) ++
    String.singleton quoteChar

mutual

/-- Serialization `JSON.stringify` (no indentation argument, as called in the app). -/
def stringify : Json → String
  | .null => "null"
  | .bool true => "true"
  | .bool false => "false"
  | .num n => toString n
  | .str s => quoteString s
  | .arr xs => "[" ++ stringifyItems xs ++ "]"
  | .obj fs => String.singleton lbrace ++ stringifyFields fs ++ String.singleton rbrace

/-- Comma-separated serialization of array elements. -/
def stringifyItems : List Json → String
  | [] => ""
  | [x] => stringify x
  | x :: y :: xs => stringify x ++ "," ++ stringifyItems (y :: xs)

/-- Comma-separated serialization of object fields. -/
def stringifyFields : List (String × Json) → String
  | [] => ""
  | [(k, v)] => quoteString k ++ ":" ++ stringify v
  | (k, v) :: f :: fs => quoteString k ++ ":" ++ stringify v ++ "," ++ stringifyFields (f :: fs)

end

/-- The JSON value `JSON.stringify` sees for one `Todo` record: an
object with the three fields in declaration order. -/
def encodeTodo (t : Todo) : Json :=
  .obj [("id", .str t.id), ("title", .str t.title), ("completed", .bool t.completed)]

/-- The JSON value for the whole `todos` array. -/
def encodeTodos (todos : List Todo) : Json :=
  .arr (todos.map encodeTodo)

/-- Reading a parsed JSON object back as a `Todo` record, the shape the
TypeScript cast `JSON.parse(localValue)` (typed `Todo[]`) asserts: the
three fields `id`, `title`, `completed` with string/string/boolean
values. -/
def decodeTodo : Json → Option Todo
  | .obj fs =>
    match (fs.find? fun kv => kv.1 = "id").map Prod.snd,
          (fs.find? fun kv => kv.1 = "title").map Prod.snd,
          (fs.find? fun kv => kv.1 = "completed").map Prod.snd with
    | some (.str i), some (.str t), some (.bool c) => some ⟨i, t, c⟩
    | _, _, _ => none
  | _ => none

/-- Reading a list of parsed JSON values back as `Todo` records. -/
def decodeTodoList : List Json → Option (List Todo)
  | [] => some []
  | x :: xs =>
    match decodeTodo x, decodeTodoList xs with
    | some t, some ts => some (t :: ts)
    | _, _ => none

/-- Reading a parsed JSON value back as the `todos` array. -/
def decodeTodos : Json → Option (List Todo)
  | .arr xs => decodeTodoList xs
  | _ => none

/-- Skip JSON insignificant whitespace. -/
def skipWs : List Char → List Char
  | [] => []
  | c :: cs => if c = ' ' ∨ c = '\t' ∨ c = '\n' ∨ c = '\r' then skipWs cs else c :: cs

/-- Value of a hexadecimal digit, for `\uXXXX` escapes. -/
def hexVal (c : Char) : Option Nat :=
  if '0' ≤ c ∧ c ≤ '9' then some (c.toNat - 48)
  else if 'a' ≤ c ∧ c ≤ 'f' then some (c.toNat - 87)
  else if 'A' ≤ c ∧ c ≤ 'F' then some (c.toNat - 55)
  else none

/-- Decoding of a single-character JSON string escape. -/
def escDecode (e : Char) : Option Char :=
  if e = quoteChar then some quoteChar
  else if e = '\\' then some '\\'
  else if e = '/' then some '/'
  else if e = 'n' then some '\n'
  else if e = 't' then some '\t'
  else if e = 'r' then some '\r'
  else if e = 'b' then some (Char.ofNat 8)
  else if e = 'f' then some (Char.ofNat 12)
  else none

/-- Value of a `\uXXXX` escape's four hexadecimal digits. -/
def hexQuad (h1 h2 h3 h4 : Char) : Option Char :=
  match hexVal h1, hexVal h2, hexVal h3, hexVal h4 with
  | some v1, some v2, some v3, some v4 =>
    some (Char.ofNat (((v1 * 16 + v2) * 16 + v3) * 16 + v4))
  | _, _, _, _ => none

/-- Parse the body of a JSON string literal (the opening quote already
consumed), returning the decoded characters and the remaining input. -/
def parseStringBody : List Char → Option (List Char × List Char)
  | [] => none
  | c :: cs =>
    if c = quoteChar then some ([], cs)
    else if c = '\\' then
      match cs with
      | [] => none
      | e :: cs1 =>
        if e = 'u' then
          match cs1 with
          | h1 :: h2 :: h3 :: h4 :: cs2 =>
            match hexQuad h1 h2 h3 h4 with
            | some d =>
              match parseStringBody cs2 with
              | some (s, r) => some (d :: s, r)
              | none => none
            | none => none
          | _ => none
        else
          match escDecode e with
          | some d =>
            match parseStringBody cs1 with
            | some (s, r) => some (d :: s, r)
            | none => none
          | none => none
    else if c.toNat < 32 then none
    else
      match parseStringBody cs with
      | some (s, r) => some (c :: s, r)
      | none => none

/-- Longest prefix of decimal digits. -/
def takeDigits : List Char → List Char × List Char
  | [] => ([], [])
  | c :: cs =>
    if '0' ≤ c ∧ c ≤ '9' then
      let (ds, r) := takeDigits cs
      (c :: ds, r)
    else ([], c :: cs)

/-- Numeric value of a digit string. -/
def digitsToNat (ds : List Char) : Nat :=
  ds.foldl (fun a c => a * 10 + (c.toNat - 48)) 0

/-- Parse a JSON integer (optional minus sign, then digits). -/
def parseNumber : List Char → Option (Int × List Char)
  | [] => none
  | c :: cs =>
    if c = '-' then
      let (ds, r) := takeDigits cs
      if ds.isEmpty then none else some (-(digitsToNat ds : Int), r)
    else
      let (ds, r) := takeDigits (c :: cs)
      if ds.isEmpty then none else some ((digitsToNat ds : Int), r)

mutual

/-- Fuel-indexed parser for one JSON value; the fuel only bounds
recursion depth and is instantiated generously in `jsonParse`. -/
def parseValue : Nat → List Char → Option (Json × List Char)
  | 0, _ => none
  | fuel + 1, cs =>
    match skipWs cs with
    | [] => none
    | c :: cs1 =>
      if c = lbrace then
        match skipWs cs1 with
        | [] => none
        | d :: cs2 =>
          if d = rbrace then some (.obj [], cs2)
          else
            match parseFields fuel (d :: cs2) with
            | some (fs, r) => some (.obj fs, r)
            | none => none
      else if c = '[' then
        match skipWs cs1 with
        | [] => none
        | d :: cs2 =>
          if d = ']' then some (.arr [], cs2)
          else
            match parseItems fuel (d :: cs2) with
            | some (xs, r) => some (.arr xs, r)
            | none => none
      else if c = quoteChar then
        match parseStringBody cs1 with
        | some (s, r) => some (.str (String.mk s), r)
        | none => none
      else if c = 't' then
        match cs1 with
        | 'r' :: 'u' :: 'e' :: r => some (.bool true, r)
        | _ => none
      else if c = 'f' then
        match cs1 with
        | 'a' :: 'l' :: 's' :: 'e' :: r => some (.bool false, r)
        | _ => none
      else if c = 'n' then
        match cs1 with
        | 'u' :: 'l' :: 'l' :: r => some (.null, r)
        | _ => none
      else
        match parseNumber (c :: cs1) with
        | some (n, r) => some (.num n, r)
        | none => none

/-- Parse the elements of a non-empty JSON array, up to and including
the closing bracket. -/
def parseItems : Nat → List Char → Option (List Json × List Char)
  | 0, _ => none
  | fuel + 1, cs =>
    match parseValue fuel cs with
    | none => none
    | some (x, r) =>
      match skipWs r with
      | [] => none
      | d :: r1 =>
        if d = ',' then
          match parseItems fuel r1 with
          | some (xs, r2) => some (x :: xs, r2)
          | none => none
        else if d = ']' then some ([x], r1)
        else none

/-- Parse the fields of a non-empty JSON object, up to and including
the closing brace. -/
def parseFields : Nat → List Char → Option (List (String × Json) × List Char)
  | 0, _ => none
  | fuel + 1, cs =>
    match skipWs cs with
    | [] => none
    | c :: cs1 =>
      if c = quoteChar then
        match parseStringBody cs1 with
        | none => none
        | some (k, r) =>
          match skipWs r with
          | [] => none
          | d :: r1 =>
            if d = ':' then
              match parseValue fuel r1 with
              | none => none
              | some (v, r2) =>
                match skipWs r2 with
                | [] => none
                | e :: r3 =>
                  if e = ',' then
                    match parseFields fuel r3 with
                    | some (fs, r4) => some ((String.mk k, v) :: fs, r4)
                    | none => none
                  else if e = rbrace then some ([(String.mk k, v)], r3)
                  else none
            else none
      else none

end

/-- Parsing `JSON.parse`: parse one value, require only whitespace after it;
malformed input yields a thrown `SyntaxError`, modelled as `.error`. -/
def jsonParse (s : String) : Except String Json :=
  match parseValue (4 * s.length + 4) s.data with
  | some (j, r) => if skipWs r = [] then .ok j else .error "SyntaxError: unexpected token"
  | none => .error "SyntaxError: JSON parse error"

/-! ## The persistence layer

The tutorial's final `App` component adds
`useEffect(() => localStorage.setItem("ITEMS", JSON.stringify(todos)), [todos])`
and initializes the state from `localStorage.getItem("ITEMS")`.
`localStorage` is the browser's string-to-string key/value store,
modelled as an association list. -/

/-- The browser's localStorage: keys mapped to stored strings. -/
abbrev Storage := List (String × String)

/-- Reading `localStorage.getItem(key)`: the stored string, or null (`none`). -/
def getItem (store : Storage) (key : String) : Option String :=
  (store.find? fun kv => kv.1 = key).map Prod.snd

/-- Writing `localStorage.setItem(key, val)`: overwrite the binding for `key`. -/
def setItem (store : Storage) (key val : String) : Storage :=
  (key, val) :: store.filter fun kv => kv.1 ≠ key

/-- The three mutations the root component exposes, as user-level
events.  `add` carries the submitted title and the identifier
`crypto.randomUUID()` returns; `toggle` carries the checkbox value the
DOM reports. -/
inductive Op where
  | add (freshId title : String)
  | toggle (id : String) (completed : Bool)
  | delete (id : String)

/-- The state transition each mutation performs on the `todos` state
variable (the `setTodos` closures of `App.tsx`). -/
def applyOp (todos : List Todo) : Op → List Todo
  | .add freshId title => addTodo todos freshId title
  | .toggle id completed => toggleTodo todos id completed
  | .delete id => deleteTodo todos id

/-- The root component's persistent-relevant state: the `todos` state
variable plus the browser store. -/
structure AppState where
  todos : List Todo
  store : Storage

/-- Processing one mutation event in the single-threaded event loop:
the `setTodos` update runs, the component re-renders, and the
`useEffect(..., [todos])` body
`localStorage.setItem("ITEMS", JSON.stringify(todos))` runs before any
further event is handled. -/
def dispatch (s : AppState) (op : Op) : AppState :=
  let todos := applyOp s.todos op
  { todos := todos
    store := setItem s.store "ITEMS" (stringify (encodeTodos todos)) }

/-- The `useState` initializer of the tutorial's final `App`:
`const localValue = localStorage.getItem("ITEMS");
if (localValue == null) return [];
return JSON.parse(localValue)`.
The declared-empty branch returns the JavaScript value `[]`
(`Json.arr []`); a present value goes through `JSON.parse`, whose
`SyntaxError` on malformed text propagates uncaught (`.error`). -/
def loadInitial (store : Storage) : Except String Json :=
  match getItem store "ITEMS" with
  | none => .ok (Json.arr [])
  | some s => jsonParse s

/-- The states reachable from the initial empty list by the three
mutations, `add` being invoked with an identifier not already in the
list (`crypto.randomUUID()` collisions excluded, as the claim
assumes). -/
inductive Reachable : List Todo → Prop where
  | empty : Reachable []
  | add {l : List Todo} (freshId title : String) :
      Reachable l → freshId ∉ ids l → Reachable (addTodo l freshId title)
  | toggle {l : List Todo} (id : String) (completed : Bool) :
      Reachable l → Reachable (toggleTodo l id completed)
  | delete {l : List Todo} (id : String) :
      Reachable l → Reachable (deleteTodo l id)

mutual

/-- Recursion depth `parseValue` needs on the printed form of a value
(each recursive parser call consumes exactly one unit of fuel). -/
def jfuel : Json → Nat
  | .null => 1
  | .bool _ => 1
  | .num _ => 1
  | .str _ => 1
  | .arr xs => 1 + ifuel xs
  | .obj fs => 1 + ffuel fs

/-- Recursion depth `parseItems` needs on printed array elements. -/
def ifuel : List Json → Nat
  | [] => 1
  | x :: xs => 1 + max (jfuel x) (ifuel xs)

/-- Recursion depth `parseFields` needs on printed object fields. -/
def ffuel : List (String × Json) → Nat
  | [] => 1
  | f :: fs => 1 + max (jfuel f.2) (ffuel fs)

end

/-- JSON values in the image of the record codec: strings, booleans,
nulls, arrays and objects, but no numeric leaves — the application's
records hold only strings and booleans, so the integer-restricted
number grammar of the embedded parser is never exercised. -/
inductive WF : Json → Prop where
  | null : WF .null
  | bool (b : Bool) : WF (.bool b)
  | str (s : String) : WF (.str s)
  | arr (xs : List Json) : (∀ x ∈ xs, WF x) → WF (.arr xs)
  | obj (fs : List (String × Json)) : (∀ f ∈ fs, WF f.2) → WF (.obj fs)

/-! ## Helper lemmas -/

/-- Toggling an identifier that is absent from the list is the identity. -/
theorem toggleTodo_eq_self {l : List Todo} {i : String} (b : Bool) (h : i ∉ ids l) :
    toggleTodo l i b = l := by
  induction l with
  | nil => rfl
  | cons t ts ih =>
      have h1 : ¬(t.id = i) := fun e => h (by simp [ids, e])
      have h2 : i ∉ ids ts := fun e => h (by simp [ids] at e ⊢; exact Or.inr e)
      have ih2 := ih h2
      simp only [toggleTodo, List.map_cons] at ih2 ⊢
      rw [if_neg h1, ih2]

/-- Deleting an identifier that is absent from the list is the identity. -/
theorem deleteTodo_eq_self {l : List Todo} {i : String} (h : i ∉ ids l) :
    deleteTodo l i = l := by
  refine List.filter_eq_self.mpr fun t ht => ?_
  have : t.id ≠ i := fun e => h (e ▸ List.mem_map_of_mem Todo.id ht)
  simpa using this

/-- Toggling never changes the identifiers of the list. -/
theorem ids_toggleTodo (l : List Todo) (i : String) (b : Bool) :
    ids (toggleTodo l i b) = ids l := by
  induction l with
  | nil => rfl
  | cons t ts ih =>
      simp only [toggleTodo, ids, List.map_cons] at ih ⊢
      by_cases h : t.id = i <;> simp [h, ih]

/-- Looking up the key just written returns the written value. -/
theorem getItem_setItem_same (store : Storage) (key val : String) :
    getItem (setItem store key val) key = some val := by
  simp [getItem, setItem]

/-- Identifiers of a decomposed list, with the middle element's
identifier absent on both sides when the identifiers are distinct. -/
theorem not_mem_ids_of_nodup_middle {l₁ l₂ : List Todo} {r : Todo}
    (hids : (ids (l₁ ++ r :: l₂)).Nodup) :
    r.id ∉ ids l₁ ∧ r.id ∉ ids l₂ := by
  have hnd : (ids l₁ ++ r.id :: ids l₂).Nodup := by
    simpa [ids] using hids
  have hmid := List.nodup_middle.mp hnd
  rw [List.nodup_cons] at hmid
  exact ⟨fun hm => hmid.1 (List.mem_append.mpr (Or.inl hm)),
         fun hm => hmid.1 (List.mem_append.mpr (Or.inr hm))⟩

/-! ## Round trip of the string printer and parser

These lemmas show that `jsonParse` inverts `stringify` on every value
the record codec can produce, escape handling included. -/

/-- Skipping whitespace leaves a list alone when its head is not a
whitespace character. -/
theorem skipWs_cons_of_not_ws {c : Char}
    (h : ¬(c = ' ' ∨ c = '\t' ∨ c = '\n' ∨ c = '\r')) (l : List Char) :
    skipWs (c :: l) = c :: l := by
  simp only [skipWs, if_neg h]

/-- Parsing a hexadecimal digit emitted by the printer recovers its
value. -/
theorem hexVal_hexDigit : ∀ n < 16, hexVal (hexDigit n) = some n := by
  decide

/-- A `\u00XX` quadruple emitted by the printer decodes to the escaped
character's code. -/
theorem hexQuad_encode (n : Nat) (h : n < 256) :
    hexQuad '0' '0' (hexDigit (n / 16)) (hexDigit (n % 16)) = some (Char.ofNat n) := by
  have hd : n / 16 < 16 := by omega
  have hm : n % 16 < 16 := by omega
  have e3 := hexVal_hexDigit _ hd
  have e4 := hexVal_hexDigit _ hm
  simp only [hexQuad, e3, e4]
  show some (Char.ofNat (((0 * 16 + 0) * 16 + n / 16) * 16 + n % 16))
      = some (Char.ofNat n)
  have harith : ((0 * 16 + 0) * 16 + n / 16) * 16 + n % 16 = n := by omega
  rw [harith]

/-- Unfolding of `parseStringBody` at the closing quote. -/
theorem parseStringBody_quote (l : List Char) :
    parseStringBody (quoteChar :: l) = some ([], l) := by
  rw [parseStringBody.eq_def]
  simp

/-- Unfolding of `parseStringBody` at a single-character escape. -/
theorem parseStringBody_backslash (e : Char) (l : List Char) (hu : ¬ e = 'u') :
    parseStringBody ('\\' :: e :: l) =
      match escDecode e with
      | some d =>
        (match parseStringBody l with
         | some (s, r) => some (d :: s, r)
         | none => none)
      | none => none := by
  rw [parseStringBody.eq_def]
  simp only [if_neg (by decide : ¬('\\' = quoteChar)), if_true, if_neg hu]

/-- Unfolding of `parseStringBody` at a `\u` escape. -/
theorem parseStringBody_u (h1 h2 h3 h4 : Char) (l : List Char) :
    parseStringBody ('\\' :: 'u' :: h1 :: h2 :: h3 :: h4 :: l) =
      match hexQuad h1 h2 h3 h4 with
      | some d =>
        (match parseStringBody l with
         | some (s, r) => some (d :: s, r)
         | none => none)
      | none => none := by
  rw [parseStringBody.eq_def]
  simp only [if_neg (by decide : ¬('\\' = quoteChar)), if_true]

/-- Unfolding of `parseStringBody` at an unescaped character. -/
theorem parseStringBody_plain (c : Char) (l : List Char)
    (h1 : ¬ c = quoteChar) (h2 : ¬ c = '\\') (h8 : ¬ c.toNat < 32) :
    parseStringBody (c :: l) =
      match parseStringBody l with
      | some (s, r) => some (c :: s, r)
      | none => none := by
  rw [parseStringBody.eq_def]
  simp only [if_neg h1, if_neg h2, if_neg h8]

/-- One escaped character round-trips through the string-body parser:
parsing the printer's escape of `c` followed by anything prepends `c`
to whatever the rest parses to. -/
theorem parseStringBody_escapeChar (c : Char) (l : List Char) :
    parseStringBody ((escapeChar c).data ++ l) =
      Option.map (fun sr => (c :: sr.1, sr.2)) (parseStringBody l) := by
  by_cases h1 : c = quoteChar
  · subst h1
    rw [show (escapeChar quoteChar).data = ['\\', quoteChar] from rfl,
      List.cons_append, List.cons_append, List.nil_append,
      parseStringBody_backslash _ _ (by decide),
      show escDecode quoteChar = some quoteChar from rfl]
    cases parseStringBody l <;> rfl
  by_cases h2 : c = '\\'
  · subst h2
    rw [show (escapeChar '\\').data = ['\\', '\\'] from rfl,
      List.cons_append, List.cons_append, List.nil_append,
      parseStringBody_backslash _ _ (by decide),
      show escDecode '\\' = some '\\' from rfl]
    cases parseStringBody l <;> rfl
  by_cases h3 : c = '\n'
  · subst h3
    rw [show (escapeChar '\n').data = ['\\', 'n'] from rfl,
      List.cons_append, List.cons_append, List.nil_append,
      parseStringBody_backslash _ _ (by decide),
      show escDecode 'n' = some '\n' from rfl]
    cases parseStringBody l <;> rfl
  by_cases h4 : c = '\t'
  · subst h4
    rw [show (escapeChar '\t').data = ['\\', 't'] from rfl,
      List.cons_append, List.cons_append, List.nil_append,
      parseStringBody_backslash _ _ (by decide),
      show escDecode 't' = some '\t' from rfl]
    cases parseStringBody l <;> rfl
  by_cases h5 : c = '\r'
  · subst h5
    rw [show (escapeChar '\r').data = ['\\', 'r'] from rfl,
      List.cons_append, List.cons_append, List.nil_append,
      parseStringBody_backslash _ _ (by decide),
      show escDecode 'r' = some '\r' from rfl]
    cases parseStringBody l <;> rfl
  by_cases h6 : c = Char.ofNat 8
  · subst h6
    rw [show (escapeChar (Char.ofNat 8)).data = ['\\', 'b'] from rfl,
      List.cons_append, List.cons_append, List.nil_append,
      parseStringBody_backslash _ _ (by decide),
      show escDecode 'b' = some (Char.ofNat 8) from rfl]
    cases parseStringBody l <;> rfl
  by_cases h7 : c = Char.ofNat 12
  · subst h7
    rw [show (escapeChar (Char.ofNat 12)).data = ['\\', 'f'] from rfl,
      List.cons_append, List.cons_append, List.nil_append,
      parseStringBody_backslash _ _ (by decide),
      show escDecode 'f' = some (Char.ofNat 12) from rfl]
    cases parseStringBody l <;> rfl
  by_cases h8 : c.toNat < 32
  · have hdata : (escapeChar c).data
        = '\\' :: 'u' :: '0' :: '0'
            :: hexDigit (c.toNat / 16) :: hexDigit (c.toNat % 16) :: [] := by
      rw [escapeChar, if_neg h1, if_neg h2, if_neg h3, if_neg h4, if_neg h5,
        if_neg h6, if_neg h7, if_pos h8]
      rfl
    rw [hdata]
    simp only [List.cons_append, List.nil_append]
    rw [parseStringBody_u, hexQuad_encode _ (by omega), Char.ofNat_toNat]
    cases parseStringBody l <;> rfl
  · have hdata : (escapeChar c).data = [c] := by
      rw [escapeChar, if_neg h1, if_neg h2, if_neg h3, if_neg h4, if_neg h5,
        if_neg h6, if_neg h7, if_neg h8]
      rfl
    rw [hdata, List.singleton_append, parseStringBody_plain c l h1 h2 h8]
    cases parseStringBody l <;> rfl

/-- The characters of a joined list of strings. -/
theorem join_data (l : List String) :
    (String.join l).data = (l.map String.data).flatten := by
  have aux : ∀ (l : List String) (acc : String),
      (l.foldl (· ++ ·) acc).data = acc.data ++ (l.map String.data).flatten := by
    intro l
    induction l with
    | nil => intro acc; simp
    | cons x xs ih =>
        intro acc
        simp [List.foldl_cons, ih, String.data_append, List.append_assoc]
  simpa [String.join] using aux l ""

/-- The escaped body of a string literal round-trips: parsing it up to
the closing quote recovers the original characters. -/
theorem parseStringBody_encoded (cs l : List Char) :
    parseStringBody ((cs.map fun c => (escapeChar c).data).flatten ++ quoteChar :: l)
      = some (cs, l) := by
  induction cs with
  | nil => simpa using parseStringBody_quote l
  | cons c cs ih =>
      rw [List.map_cons, List.flatten_cons, List.append_assoc,
        parseStringBody_escapeChar, ih]
      rfl

/-- The characters of a printed string literal. -/
theorem quoteString_data (s : String) :
    (quoteString s).data
      = quoteChar :: ((s.data.map fun c => (escapeChar c).data).flatten ++ [quoteChar]) := by
  simp [quoteString, String.data_append, join_data, List.map_map, Function.comp_def]

/-- Unfolding of `parseValue` at an opening quote. -/
theorem parseValue_quote (f : Nat) (l : List Char) :
    parseValue (f + 1) (quoteChar :: l) =
      match parseStringBody l with
      | some (s, r) => some (.str (String.mk s), r)
      | none => none := rfl

/-- Unfolding of `parseValue` at an opening bracket. -/
theorem parseValue_lbracket (f : Nat) (l : List Char) :
    parseValue (f + 1) ('[' :: l) =
      (match skipWs l with
      | [] => none
      | d :: cs2 =>
        if d = ']' then some (.arr [], cs2)
        else match parseItems f (d :: cs2) with
          | some (xs, r) => some (.arr xs, r)
          | none => none) := rfl

/-- Unfolding of `parseValue` at an opening brace. -/
theorem parseValue_lbrace (f : Nat) (l : List Char) :
    parseValue (f + 1) (lbrace :: l) =
      (match skipWs l with
      | [] => none
      | d :: cs2 =>
        if d = rbrace then some (.obj [], cs2)
        else match parseFields f (d :: cs2) with
          | some (fs, r) => some (.obj fs, r)
          | none => none) := rfl

/-- Unfolding of `parseValue` at the literal `true`. -/
theorem parseValue_true (f : Nat) (l : List Char) :
    parseValue (f + 1) ('t' :: 'r' :: 'u' :: 'e' :: l) = some (.bool true, l) := rfl

/-- Unfolding of `parseValue` at the literal `false`. -/
theorem parseValue_false (f : Nat) (l : List Char) :
    parseValue (f + 1) ('f' :: 'a' :: 'l' :: 's' :: 'e' :: l) = some (.bool false, l) := rfl

/-- Unfolding of `parseValue` at the literal `null`. -/
theorem parseValue_null (f : Nat) (l : List Char) :
    parseValue (f + 1) ('n' :: 'u' :: 'l' :: 'l' :: l) = some (.null, l) := rfl

/-- Unfolding of `parseItems` at nonzero fuel. -/
theorem parseItems_succ (f : Nat) (cs : List Char) :
    parseItems (f + 1) cs =
      (match parseValue f cs with
      | none => none
      | some (x, r) =>
        match skipWs r with
        | [] => none
        | d :: r1 =>
          if d = ',' then
            match parseItems f r1 with
            | some (xs, r2) => some (x :: xs, r2)
            | none => none
          else if d = ']' then some ([x], r1)
          else none) := rfl

/-- Unfolding of `parseFields` at an opening quote. -/
theorem parseFields_quote (f : Nat) (l : List Char) :
    parseFields (f + 1) (quoteChar :: l) =
      (match parseStringBody l with
      | none => none
      | some (k, r) =>
        match skipWs r with
        | [] => none
        | d :: r1 =>
          if d = ':' then
            match parseValue f r1 with
            | none => none
            | some (v, r2) =>
              match skipWs r2 with
              | [] => none
              | e :: r3 =>
                if e = ',' then
                  match parseFields f r3 with
                  | some (fs, r4) => some ((String.mk k, v) :: fs, r4)
                  | none => none
                else if e = rbrace then some ([(String.mk k, v)], r3)
                else none
          else none) := rfl

/-- Whitespace skipping stops at a colon. -/
theorem skipWs_colon (l : List Char) : skipWs (':' :: l) = ':' :: l := rfl

/-- Whitespace skipping stops at a comma. -/
theorem skipWs_comma (l : List Char) : skipWs (',' :: l) = ',' :: l := rfl

/-- Whitespace skipping stops at a closing bracket. -/
theorem skipWs_rbracket (l : List Char) : skipWs (']' :: l) = ']' :: l := rfl

/-- Whitespace skipping stops at a closing brace. -/
theorem skipWs_rbrace (l : List Char) : skipWs (rbrace :: l) = rbrace :: l := rfl

/-- The characters of a printed array. -/
theorem stringify_arr_data (xs : List Json) :
    (stringify (Json.arr xs)).data = '[' :: ((stringifyItems xs).data ++ [']']) := by
  rw [show stringify (Json.arr xs) = "[" ++ stringifyItems xs ++ "]" from by
    simp [stringify]]
  simp [String.data_append, show ("[" : String).data = ['['] from rfl,
    show ("]" : String).data = [']'] from rfl]

/-- The characters of a printed object. -/
theorem stringify_obj_data (fs : List (String × Json)) :
    (stringify (Json.obj fs)).data = lbrace :: ((stringifyFields fs).data ++ [rbrace]) := by
  rw [show stringify (Json.obj fs)
      = String.singleton lbrace ++ stringifyFields fs ++ String.singleton rbrace from by
    simp [stringify]]
  simp [String.data_append]

/-- A one-element list of array items prints as the item itself. -/
theorem stringifyItems_single (x : Json) : stringifyItems [x] = stringify x := by
  simp [stringifyItems]

/-- A multi-element list of array items prints as the first item, a
comma, and the rest. -/
theorem stringifyItems_cons2_data (x y : Json) (ys : List Json) :
    (stringifyItems (x :: y :: ys)).data
      = (stringify x).data ++ ',' :: (stringifyItems (y :: ys)).data := by
  rw [show stringifyItems (x :: y :: ys)
      = stringify x ++ "," ++ stringifyItems (y :: ys) from by
    simp [stringifyItems]]
  simp [String.data_append, show ("," : String).data = [','] from rfl]

/-- The characters of a printed single-field object body. -/
theorem stringifyFields_single_data (k : String) (v : Json) :
    (stringifyFields [(k, v)]).data
      = quoteChar :: ((k.data.map fun c => (escapeChar c).data).flatten
          ++ quoteChar :: ':' :: (stringify v).data) := by
  rw [show stringifyFields [(k, v)] = quoteString k ++ ":" ++ stringify v from by
    simp [stringifyFields]]
  simp [String.data_append, quoteString_data, show (":" : String).data = [':'] from rfl]

/-- The characters of a printed multi-field object body. -/
theorem stringifyFields_cons_data (k : String) (v : Json) (g : String × Json)
    (fs : List (String × Json)) :
    (stringifyFields ((k, v) :: g :: fs)).data
      = quoteChar :: ((k.data.map fun c => (escapeChar c).data).flatten
          ++ quoteChar :: ':' :: ((stringify v).data ++ ',' :: (stringifyFields (g :: fs)).data)) := by
  rw [show stringifyFields ((k, v) :: g :: fs)
      = quoteString k ++ ":" ++ stringify v ++ "," ++ stringifyFields (g :: fs) from by
    simp [stringifyFields]]
  simp [String.data_append, quoteString_data, show (":" : String).data = [':'] from rfl,
    show ("," : String).data = [','] from rfl]

/-- The first character of a printed well-formed value: an opening
bracket or brace, a quote, or the first letter of a literal.  This is
what the parser's dispatch looks at. -/
theorem stringify_head (j : Json) (h : WF j) :
    ∃ c cs, (stringify j).data = c :: cs ∧
      (c = '[' ∨ c = lbrace ∨ c = quoteChar ∨ c = 't' ∨ c = 'f' ∨ c = 'n') := by
  cases h with
  | null => exact ⟨'n', ['u', 'l', 'l'], rfl, by simp⟩
  | bool b =>
      cases b with
      | true => exact ⟨'t', ['r', 'u', 'e'], rfl, by simp⟩
      | false => exact ⟨'f', ['a', 'l', 's', 'e'], rfl, by simp⟩
  | str s =>
      exact ⟨quoteChar, _,
        by rw [show stringify (Json.str s) = quoteString s from rfl]; exact quoteString_data s,
        by simp⟩
  | arr xs hxs => exact ⟨'[', _, stringify_arr_data xs, by simp⟩
  | obj fs hfs => exact ⟨lbrace, _, stringify_obj_data fs, by simp⟩

/-- The first character of a printed nonempty item list is the first
character of its first item. -/
theorem stringifyItems_head (x : Json) (xs : List Json) (h : WF x) :
    ∃ c cs, (stringifyItems (x :: xs)).data = c :: cs ∧
      (c = '[' ∨ c = lbrace ∨ c = quoteChar ∨ c = 't' ∨ c = 'f' ∨ c = 'n') := by
  obtain ⟨c, cs, hx, hc⟩ := stringify_head x h
  cases xs with
  | nil => exact ⟨c, cs, by rw [stringifyItems_single, hx], hc⟩
  | cons y ys =>
      exact ⟨c, cs ++ ',' :: (stringifyItems (y :: ys)).data,
        by rw [stringifyItems_cons2_data, hx, List.cons_append], hc⟩

/-- Every value needs at least one unit of parser fuel. -/
theorem jfuel_pos (j : Json) : 1 ≤ jfuel j := by
  cases j <;> simp [jfuel]

/-- Every item list needs at least one unit of parser fuel. -/
theorem ifuel_pos (xs : List Json) : 1 ≤ ifuel xs := by
  cases xs <;> simp [ifuel]

/-- Every field list needs at least one unit of parser fuel. -/
theorem ffuel_pos (fs : List (String × Json)) : 1 ≤ ffuel fs := by
  cases fs <;> simp [ffuel]

mutual

/-- The fuel a well-formed value needs is at most its printed length. -/
theorem jfuel_le_length (j : Json) (h : WF j) : jfuel j ≤ (stringify j).data.length := by
  cases h with
  | null =>
      rw [show (stringify Json.null).data = ['n', 'u', 'l', 'l'] from rfl]
      simp [jfuel]
  | bool b =>
      cases b with
      | true =>
          rw [show (stringify (Json.bool true)).data = ['t', 'r', 'u', 'e'] from rfl]
          simp [jfuel]
      | false =>
          rw [show (stringify (Json.bool false)).data = ['f', 'a', 'l', 's', 'e'] from rfl]
          simp [jfuel]
  | str s =>
      rw [show stringify (Json.str s) = quoteString s from rfl, quoteString_data]
      simp [jfuel]
  | arr xs hxs =>
      have hb := ifuel_le_length xs hxs
      rw [stringify_arr_data]
      simp only [jfuel, List.length_cons, List.length_append, List.length_singleton]
      omega
  | obj fs hfs =>
      have hb := ffuel_le_length fs hfs
      rw [stringify_obj_data]
      simp only [jfuel, List.length_cons, List.length_append, List.length_singleton]
      omega

/-- The fuel a well-formed item list needs is at most its printed
length plus one. -/
theorem ifuel_le_length (xs : List Json) (h : ∀ x ∈ xs, WF x) :
    ifuel xs ≤ (stringifyItems xs).data.length + 1 := by
  cases xs with
  | nil => simp [ifuel]
  | cons x xs =>
      have hx := jfuel_le_length x (h x (by simp))
      have hpos : 1 ≤ (stringify x).data.length := by
        obtain ⟨c, cs, hc, _⟩ := stringify_head x (h x (by simp))
        simp [hc]
      cases xs with
      | nil =>
          rw [stringifyItems_single]
          have h1 : ifuel ([] : List Json) = 1 := by simp [ifuel]
          have hmax : max (jfuel x) (ifuel ([] : List Json)) ≤ (stringify x).data.length :=
            Nat.max_le.mpr ⟨hx, by omega⟩
          simp only [ifuel]
          omega
      | cons y ys =>
          have ht := ifuel_le_length (y :: ys) (fun z hz => h z (by simp [hz]))
          have hmax : max (jfuel x) (ifuel (y :: ys))
              ≤ (stringify x).data.length + (stringifyItems (y :: ys)).data.length + 1 :=
            Nat.max_le.mpr ⟨by omega, by omega⟩
          rw [stringifyItems_cons2_data,
            show ifuel (x :: y :: ys) = 1 + max (jfuel x) (ifuel (y :: ys)) from by
              simp [ifuel]]
          simp only [List.length_append, List.length_cons]
          omega

/-- The fuel a well-formed field list needs is at most its printed
length plus one. -/
theorem ffuel_le_length (fs : List (String × Json)) (h : ∀ f ∈ fs, WF f.2) :
    ffuel fs ≤ (stringifyFields fs).data.length + 1 := by
  cases fs with
  | nil => simp [ffuel]
  | cons kv fs =>
      obtain ⟨k, v⟩ := kv
      have hv := jfuel_le_length v (h (k, v) (by simp))
      cases fs with
      | nil =>
          have h1 : ffuel ([] : List (String × Json)) = 1 := by simp [ffuel]
          have hmax : max (jfuel v) (ffuel ([] : List (String × Json)))
              ≤ (stringify v).data.length + 1 :=
            Nat.max_le.mpr ⟨by omega, by omega⟩
          rw [stringifyFields_single_data]
          simp only [ffuel, List.length_cons, List.length_append]
          omega
      | cons g gs =>
          have ht := ffuel_le_length (g :: gs) (fun z hz => h z (by simp [hz]))
          have hmax : max (jfuel v) (ffuel (g :: gs))
              ≤ (stringify v).data.length + (stringifyFields (g :: gs)).data.length + 1 :=
            Nat.max_le.mpr ⟨by omega, by omega⟩
          rw [stringifyFields_cons_data,
            show ffuel ((k, v) :: g :: gs) = 1 + max (jfuel v) (ffuel (g :: gs)) from by
              simp [ffuel]]
          simp only [List.length_cons, List.length_append]
          omega

end

/-- Main induction on fuel: with fuel at least the measure, the parser
returns exactly the printed well-formed value, item list, or field
list, consuming exactly its text. -/
theorem parse_print_aux (fuel : Nat) :
    (∀ j rest, WF j → jfuel j ≤ fuel →
      parseValue fuel ((stringify j).data ++ rest) = some (j, rest)) ∧
    (∀ xs rest, (∀ x ∈ xs, WF x) → xs ≠ [] → ifuel xs ≤ fuel →
      parseItems fuel ((stringifyItems xs).data ++ ']' :: rest) = some (xs, rest)) ∧
    (∀ fs rest, (∀ g ∈ fs, WF g.2) → fs ≠ [] → ffuel fs ≤ fuel →
      parseFields fuel ((stringifyFields fs).data ++ rbrace :: rest) = some (fs, rest)) := by
  induction fuel with
  | zero =>
      refine ⟨fun j rest hwf hf => ?_, fun xs rest hwf hne hf => ?_,
        fun fs rest hwf hne hf => ?_⟩
      · have := jfuel_pos j; omega
      · have := ifuel_pos xs; omega
      · have := ffuel_pos fs; omega
  | succ f ih =>
      obtain ⟨ihv, ihi, ihf⟩ := ih
      refine ⟨?_, ?_, ?_⟩
      · intro j rest hwf hfl
        cases hwf with
        | null =>
            rw [show (stringify Json.null).data = ['n', 'u', 'l', 'l'] from rfl]
            simp only [List.cons_append, List.nil_append]
            exact parseValue_null f rest
        | bool b =>
            cases b with
            | true =>
                rw [show (stringify (Json.bool true)).data = ['t', 'r', 'u', 'e'] from rfl]
                simp only [List.cons_append, List.nil_append]
                exact parseValue_true f rest
            | false =>
                rw [show (stringify (Json.bool false)).data = ['f', 'a', 'l', 's', 'e'] from rfl]
                simp only [List.cons_append, List.nil_append]
                exact parseValue_false f rest
        | str s =>
            rw [show stringify (Json.str s) = quoteString s from rfl, quoteString_data]
            simp only [List.cons_append, List.append_assoc, List.singleton_append, List.nil_append]
            rw [parseValue_quote, parseStringBody_encoded]
        | arr xs hxs =>
            rw [stringify_arr_data]
            simp only [List.cons_append, List.append_assoc, List.singleton_append, List.nil_append]
            rw [parseValue_lbracket]
            cases xs with
            | nil =>
                rw [show (stringifyItems ([] : List Json)).data = [] from by
                  simp [stringifyItems]]
                simp [skipWs_rbracket]
            | cons x xs =>
                obtain ⟨c, cs1, hitems, hc⟩ := stringifyItems_head x xs (hxs x (by simp))
                have hfl2 : ifuel (x :: xs) ≤ f := by
                  rw [show jfuel (Json.arr (x :: xs)) = 1 + ifuel (x :: xs) from by
                    simp [jfuel]] at hfl
                  omega
                have hitems2 : parseItems f (c :: (cs1 ++ ']' :: rest))
                    = some (x :: xs, rest) := by
                  have h0 := ihi (x :: xs) rest hxs (by simp) hfl2
                  rwa [hitems, List.cons_append] at h0
                have hws : ¬(c = ' ' ∨ c = '\t' ∨ c = '\n' ∨ c = '\r') := by
                  rcases hc with rfl | rfl | rfl | rfl | rfl | rfl <;> decide
                have hcne : ¬ c = ']' := by
                  rcases hc with rfl | rfl | rfl | rfl | rfl | rfl <;> decide
                rw [hitems]
                simp only [List.cons_append]
                rw [skipWs_cons_of_not_ws hws]
                simp only [if_neg hcne, hitems2]
        | obj fs hfs =>
            rw [stringify_obj_data]
            simp only [List.cons_append, List.append_assoc, List.singleton_append, List.nil_append]
            rw [parseValue_lbrace]
            cases fs with
            | nil =>
                rw [show (stringifyFields ([] : List (String × Json))).data = [] from by
                  simp [stringifyFields]]
                simp [skipWs_rbrace]
            | cons kv fs1 =>
                obtain ⟨k, v⟩ := kv
                obtain ⟨tail, htail⟩ :
                    ∃ tail, (stringifyFields ((k, v) :: fs1)).data = quoteChar :: tail := by
                  cases fs1 with
                  | nil => exact ⟨_, stringifyFields_single_data k v⟩
                  | cons g gs => exact ⟨_, stringifyFields_cons_data k v g gs⟩
                have hfl2 : ffuel ((k, v) :: fs1) ≤ f := by
                  rw [show jfuel (Json.obj ((k, v) :: fs1)) = 1 + ffuel ((k, v) :: fs1) from by
                    simp [jfuel]] at hfl
                  omega
                have hfields2 : parseFields f (quoteChar :: (tail ++ rbrace :: rest))
                    = some ((k, v) :: fs1, rest) := by
                  have h0 := ihf ((k, v) :: fs1) rest hfs (by simp) hfl2
                  rwa [htail, List.cons_append] at h0
                rw [htail]
                simp only [List.cons_append]
                rw [skipWs_cons_of_not_ws (by decide)]
                simp only [if_neg (by decide : ¬ quoteChar = rbrace), hfields2]
      · intro xs rest hwf hne hfl
        cases xs with
        | nil => exact absurd rfl hne
        | cons x xs =>
            have hwx : WF x := hwf x (by simp)
            cases xs with
            | nil =>
                rw [stringifyItems_single, parseItems_succ]
                have hfx : jfuel x ≤ f := by
                  rw [show ifuel [x] = 1 + max (jfuel x) (ifuel ([] : List Json)) from by
                    simp [ifuel]] at hfl
                  have := Nat.le_max_left (jfuel x) (ifuel ([] : List Json))
                  omega
                rw [ihv x (']' :: rest) hwx hfx]
                simp [skipWs_rbracket]
            | cons y ys =>
                rw [show (stringifyItems (x :: y :: ys)).data ++ ']' :: rest
                    = (stringify x).data
                        ++ ',' :: ((stringifyItems (y :: ys)).data ++ ']' :: rest) from by
                  rw [stringifyItems_cons2_data]
                  simp [List.append_assoc]]
                rw [parseItems_succ]
                have hmax : ifuel (x :: y :: ys) = 1 + max (jfuel x) (ifuel (y :: ys)) := by
                  simp [ifuel]
                have hfx : jfuel x ≤ f := by
                  have := Nat.le_max_left (jfuel x) (ifuel (y :: ys))
                  omega
                have hfr : ifuel (y :: ys) ≤ f := by
                  have := Nat.le_max_right (jfuel x) (ifuel (y :: ys))
                  omega
                have hrec := ihi (y :: ys) rest (fun z hz => hwf z (by simp [hz]))
                  (by simp) hfr
                rw [ihv x (',' :: ((stringifyItems (y :: ys)).data ++ ']' :: rest)) hwx hfx]
                simp only [skipWs_comma, hrec, if_true]
      · intro fs rest hwf hne hfl
        cases fs with
        | nil => exact absurd rfl hne
        | cons kv fs1 =>
            obtain ⟨k, v⟩ := kv
            have hwv : WF v := hwf (k, v) (by simp)
            cases fs1 with
            | nil =>
                rw [stringifyFields_single_data]
                simp only [List.cons_append, List.append_assoc, List.nil_append]
                rw [parseFields_quote, parseStringBody_encoded]
                have hfv : jfuel v ≤ f := by
                  rw [show ffuel [(k, v)]
                      = 1 + max (jfuel v) (ffuel ([] : List (String × Json))) from by
                    simp [ffuel]] at hfl
                  have := Nat.le_max_left (jfuel v) (ffuel ([] : List (String × Json)))
                  omega
                have hv := ihv v (rbrace :: rest) hwv hfv
                simp only [skipWs_colon, hv, skipWs_rbrace, if_true,
                  if_neg (by decide : ¬ rbrace = ',')]
            | cons g gs =>
                rw [stringifyFields_cons_data]
                simp only [List.cons_append, List.append_assoc, List.nil_append]
                rw [parseFields_quote, parseStringBody_encoded]
                have hmax : ffuel ((k, v) :: g :: gs) = 1 + max (jfuel v) (ffuel (g :: gs)) := by
                  simp [ffuel]
                have hfv : jfuel v ≤ f := by
                  have := Nat.le_max_left (jfuel v) (ffuel (g :: gs))
                  omega
                have hfr : ffuel (g :: gs) ≤ f := by
                  have := Nat.le_max_right (jfuel v) (ffuel (g :: gs))
                  omega
                have hrec := ihf (g :: gs) rest (fun z hz => hwf z (by simp [hz]))
                  (by simp) hfr
                have hv := ihv v
                  (',' :: ((stringifyFields (g :: gs)).data ++ rbrace :: rest)) hwv hfv
                simp only [skipWs_colon, hv, skipWs_comma, hrec, if_true]

/-! ## The claims -/

/-- Claim C1, counterexample: the claim "submitting the form while the
input text is empty leaves the todo list unchanged" fails on the root
component.  The `handleSubmit` of `App.tsx` has no emptiness guard:
submitting the empty string on the empty list appends a record with
empty title, so the list does change. -/
theorem root_handleSubmit_empty_changes_list :
    handleSubmit [] "" "id0" = ([{ id := "id0", title := "", completed := false }], "") ∧
    (handleSubmit [] "" "id0").1 ≠ [] := by
  exact ⟨rfl, by decide⟩

/-- Claim C1, amended: only the extracted `NewTodoForm` component's
`handleSubmit` (with its `if (newItem === "") return` guard) silently
ignores an empty-title submission, leaving the list unchanged; the
root `App.tsx` form handler appends a record even for an empty title. -/
theorem newTodoForm_ignores_empty_submit (todos : List Todo) (freshId : String) :
    newTodoFormSubmit todos "" freshId = (todos, "") := by
  simp [newTodoFormSubmit]

/-- Claim C2: after every mutation event (add, toggle, delete), the
store holds, under the fixed key `"ITEMS"`, exactly the JSON
serialization of the new todo list.  In the single-threaded event
model, the `useEffect` write happens within the processing of the
mutation, before any further event. -/
theorem store_synced_after_every_mutation (s : AppState) (op : Op) :
    getItem (dispatch s op).store "ITEMS" =
      some (stringify (encodeTodos (dispatch s op).todos)) := by
  simpa [dispatch] using
    getItem_setItem_same s.store "ITEMS" (stringify (encodeTodos (applyOp s.todos op)))

/-- Claim C3: on a list with pairwise-distinct identifiers, toggling a
record present in it (the user-level checkbox toggle, which passes the
negated flag) flips exactly that record's `completed` flag and leaves
every other record byte-for-byte unchanged, in place. -/
theorem toggle_flips_target_preserves_rest (l : List Todo) (r : Todo)
    (hids : (ids l).Nodup) (hr : r ∈ l) :
    ∃ l₁ l₂, l = l₁ ++ r :: l₂ ∧
      uiToggle l r = l₁ ++ ({ r with completed := !r.completed }) :: l₂ := by
  obtain ⟨l₁, l₂, rfl⟩ := List.append_of_mem hr
  refine ⟨l₁, l₂, rfl, ?_⟩
  obtain ⟨h1, h2⟩ := not_mem_ids_of_nodup_middle hids
  have e1 := toggleTodo_eq_self (l := l₁) (!r.completed) h1
  have e2 := toggleTodo_eq_self (l := l₂) (!r.completed) h2
  simp only [toggleTodo] at e1 e2
  simp only [uiToggle, toggleTodo, List.map_append, List.map_cons, e1, e2]
  simp

/-- Claim C3, witness at a concrete two-element list. -/
theorem toggle_flips_target_preserves_rest_witness :
    ∃ l₁ l₂, ([⟨"a", "one", false⟩, ⟨"b", "two", true⟩] : List Todo)
        = l₁ ++ (⟨"b", "two", true⟩ : Todo) :: l₂ ∧
      uiToggle [⟨"a", "one", false⟩, ⟨"b", "two", true⟩] ⟨"b", "two", true⟩
        = l₁ ++ (⟨"b", "two", false⟩ : Todo) :: l₂ :=
  toggle_flips_target_preserves_rest _ _ (by decide) (by decide)

/-- Claim C4: on a list with pairwise-distinct identifiers, deleting
the identifier of a record present in it removes exactly that record
and leaves the rest unchanged and in the same relative order. -/
theorem delete_removes_exactly_target (l : List Todo) (r : Todo)
    (hids : (ids l).Nodup) (hr : r ∈ l) :
    ∃ l₁ l₂, l = l₁ ++ r :: l₂ ∧ deleteTodo l r.id = l₁ ++ l₂ := by
  obtain ⟨l₁, l₂, rfl⟩ := List.append_of_mem hr
  refine ⟨l₁, l₂, rfl, ?_⟩
  obtain ⟨h1, h2⟩ := not_mem_ids_of_nodup_middle hids
  have e1 := deleteTodo_eq_self h1
  have e2 := deleteTodo_eq_self h2
  simp only [deleteTodo] at e1 e2
  simp only [deleteTodo, List.filter_append, List.filter_cons, e1, e2]
  simp

/-- Claim C4, witness at a concrete two-element list. -/
theorem delete_removes_exactly_target_witness :
    ∃ l₁ l₂, ([⟨"a", "one", false⟩, ⟨"b", "two", true⟩] : List Todo)
        = l₁ ++ (⟨"a", "one", false⟩ : Todo) :: l₂ ∧
      deleteTodo [⟨"a", "one", false⟩, ⟨"b", "two", true⟩] "a" = l₁ ++ l₂ :=
  delete_removes_exactly_target _ _ (by decide) (by decide)

/-- Claim C5: adding a title appends exactly one record at the end,
with the submitted title taken verbatim, `completed = false` and the
freshly generated identifier; the length grows by one. -/
theorem add_appends_fresh_record (todos : List Todo) (title freshId : String) :
    (handleSubmit todos title freshId).1.length = todos.length + 1 ∧
    (handleSubmit todos title freshId).1.getLast? =
      some { id := freshId, title := title, completed := false } ∧
    (handleSubmit todos title freshId).1 =
      todos ++ [{ id := freshId, title := title, completed := false }] := by
  refine ⟨?_, ?_, rfl⟩
  · simp [handleSubmit, addTodo]
  · simp [handleSubmit, addTodo, List.getLast?_concat]

/-- Claim C6, counterexample: the claim "absent **or unparsable**
persisted data yields the empty initial list with no error raised"
fails: the initializer only checks for `null`; on present but
unparsable data, `JSON.parse` throws a `SyntaxError` that nothing
catches, rather than producing the empty list. -/
theorem unparsable_persisted_data_errors :
    loadInitial [("ITEMS", "oops")] = .error "SyntaxError: JSON parse error" ∧
    loadInitial [("ITEMS", "oops")] ≠ .ok (Json.arr []) :=
  ⟨rfl, fun h => nomatch h⟩

/-- Claim C6, amended: when the persisted value under `"ITEMS"` is
absent, the initial list is the empty list (the empty JSON array, which
reads back as the empty record list) and no error is raised; when a
value is present it is handed to `JSON.parse`, whose failure on
unparsable data propagates as an uncaught error. -/
theorem load_absent_gives_empty (store : Storage) :
    (getItem store "ITEMS" = none →
      loadInitial store = .ok (Json.arr []) ∧ decodeTodos (Json.arr []) = some []) ∧
    (∀ s, getItem store "ITEMS" = some s → loadInitial store = jsonParse s) := by
  constructor
  · intro h
    exact ⟨by simp [loadInitial, h], rfl⟩
  · intro s h
    simp [loadInitial, h]

/-- Claim C6, witness: an empty store loads the empty list; a store
holding text defers to the parse of that text. -/
theorem load_absent_gives_empty_witness :
    (loadInitial [] = .ok (Json.arr []) ∧ decodeTodos (Json.arr []) = some []) ∧
    loadInitial [("ITEMS", "[1")] = jsonParse "[1" :=
  ⟨(load_absent_gives_empty []).1 rfl,
   (load_absent_gives_empty [("ITEMS", "[1")]).2 "[1" rfl⟩

/-- Claim C7: in every state reachable from the empty list by add,
toggle and delete — add being invoked with an identifier not already
present — the identifiers in the list are pairwise distinct. -/
theorem reachable_ids_nodup (l : List Todo) (h : Reachable l) : (ids l).Nodup := by
  induction h with
  | empty => simp [ids]
  | add freshId title hr hfresh ih =>
      simp only [ids, addTodo, List.map_append, List.map_cons, List.map_nil]
      rw [List.nodup_append]
      refine ⟨ih, List.nodup_singleton _, fun a ha hb => ?_⟩
      have ha2 : a = freshId := by simpa using hb
      exact hfresh (ha2 ▸ ha)
  | toggle i b hr ih =>
      rw [ids_toggleTodo]
      exact ih
  | delete i hr ih =>
      exact List.Nodup.sublist ((List.filter_sublist _).map Todo.id) ih

/-- Claim C7, witness: a concrete reachable one-element state has
pairwise-distinct identifiers. -/
theorem reachable_ids_nodup_witness :
    (ids (addTodo [] "id-a" "Buy milk")).Nodup :=
  reachable_ids_nodup _
    (Reachable.add "id-a" "Buy milk" Reachable.empty (by simp [ids, addTodo]))

/-- Claim C8: the concrete scenario — add "Buy milk" to the empty
list, toggle its identifier (checkbox reports `true`), add "Walk dog",
then delete the first identifier — produces exactly the states the
specification lists. -/
theorem scenario_buy_milk_walk_dog :
    addTodo [] "u1" "Buy milk" = [⟨"u1", "Buy milk", false⟩] ∧
    uiToggle [⟨"u1", "Buy milk", false⟩] ⟨"u1", "Buy milk", false⟩
      = [⟨"u1", "Buy milk", true⟩] ∧
    addTodo [⟨"u1", "Buy milk", true⟩] "u2" "Walk dog"
      = [⟨"u1", "Buy milk", true⟩, ⟨"u2", "Walk dog", false⟩] ∧
    deleteTodo [⟨"u1", "Buy milk", true⟩, ⟨"u2", "Walk dog", false⟩] "u1"
      = [⟨"u2", "Walk dog", false⟩] := by
  decide

/-- Parsing inverts printing on every well-formed JSON value:
`JSON.parse` applied to the `JSON.stringify` output returns the very
value that was serialized, with no error. -/
theorem jsonParse_stringify (j : Json) (h : WF j) :
    jsonParse (stringify j) = .ok j := by
  have hlen : jfuel j ≤ 4 * (stringify j).length + 4 := by
    have hb := jfuel_le_length j h
    have hd : (stringify j).length = (stringify j).data.length := rfl
    omega
  have hmain := (parse_print_aux (4 * (stringify j).length + 4)).1 j [] h hlen
  rw [List.append_nil] at hmain
  simp [jsonParse, hmain, skipWs]

/-- The JSON tree for one record is well formed. -/
theorem wf_encodeTodo (t : Todo) : WF (encodeTodo t) := by
  refine WF.obj _ fun g hg => ?_
  simp only [encodeTodo, List.mem_cons, List.not_mem_nil, or_false] at hg
  rcases hg with rfl | rfl | rfl
  · exact WF.str _
  · exact WF.str _
  · exact WF.bool _

/-- The JSON tree for a whole list of records is well formed. -/
theorem wf_encodeTodos (todos : List Todo) : WF (encodeTodos todos) := by
  refine WF.arr _ fun x hx => ?_
  simp only [encodeTodos] at hx
  obtain ⟨t, _, rfl⟩ := List.mem_map.mp hx
  exact wf_encodeTodo t

/-- Reading a decoded JSON tree of records back yields the records. -/
theorem decodeTodos_encodeTodos (todos : List Todo) :
    decodeTodos (encodeTodos todos) = some todos := by
  have h : ∀ t : Todo, decodeTodo (encodeTodo t) = some t := fun t => rfl
  induction todos with
  | nil => rfl
  | cons t ts ih =>
      simp only [encodeTodos, decodeTodos] at ih ⊢
      simp only [List.map_cons, decodeTodoList, h t, ih]

/-- Claim C9: serializing any todo list with `JSON.stringify` (the
string `dispatch` persists) and deserializing that string with
`JSON.parse` (as the startup initializer does) reproduces an equal
list: the parser inverts the printer on the persisted text, and the
parsed JSON value reads back as exactly the original records. -/
theorem serialize_deserialize_roundtrip (todos : List Todo) :
    jsonParse (stringify (encodeTodos todos)) = .ok (encodeTodos todos) ∧
    decodeTodos (encodeTodos todos) = some todos :=
  ⟨jsonParse_stringify _ (wf_encodeTodos todos), decodeTodos_encodeTodos todos⟩

/-- Claim C10: toggling (with either checkbox value) or deleting an
identifier that occurs nowhere in the list returns the list completely
unchanged. -/
theorem absent_id_toggle_delete_noop (l : List Todo) (i : String) (h : i ∉ ids l) :
    (∀ b, toggleTodo l i b = l) ∧ deleteTodo l i = l :=
  ⟨fun b => toggleTodo_eq_self b h, deleteTodo_eq_self h⟩

/-- Claim C10, witness at a concrete list and absent identifier. -/
theorem absent_id_toggle_delete_noop_witness :
    (∀ b, toggleTodo [⟨"a", "one", false⟩] "z" b = [⟨"a", "one", false⟩]) ∧
    deleteTodo [⟨"a", "one", false⟩] "z" = [⟨"a", "one", false⟩] :=
  absent_id_toggle_delete_noop _ _ (by decide)

end TodoApp
